import Mathlib

/-!
Verification development for the slidegen PDF-to-LaTeX converter.

We give a shallow embedding of the string-processing pipeline of
`src/converter` (the repair and validation utilities in
`utils/latex_processing.py`, the markdown rendering in
`utils/text_processing.py` and `workflow/stage1_basic_latex.py`, and the
classification-response parsing in `workflow/stage2_image_analysis.py`).

Python strings are modelled as `List Char`.  Python's `re.sub` with the
concrete patterns used by the source is modelled by an explicit left-to-right
scan (`scanRw`): at each position the fixed pattern either matches (the
matched text is replaced and scanning resumes after it, so matches do not
overlap, exactly as in `re.sub`) or the scan advances one character.  All the
patterns in the source start with a literal and use only negated character
classes, so matching at a given position is deterministic and this scan is
an exact model.  Functions that raise `ValueError` are modelled with
`Except String`.
-/

namespace SlideGen

/-- Boolean test that `p` is an initial segment of `s` (model of Python
`str.startswith` and of anchoring a literal regex at a position). -/
def isPre : List Char → List Char → Bool
  | [], _ => true
  | _ :: _, [] => false
  | a :: as, b :: bs => a == b && isPre as bs

/-- Drop the initial segment `p` from `s`, or fail. -/
def dropPre : List Char → List Char → Option (List Char)
  | [], s => some s
  | _ :: _, [] => none
  | a :: as, b :: bs => if a = b then dropPre as bs else none

/-- Boolean substring test (model of Python's `in` on strings). -/
def containsSub (pat : List Char) : List Char → Bool
  | [] => isPre pat []
  | c :: cs => isPre pat (c :: cs) || containsSub pat cs

/-- Number of positions of `s` at which `pat` starts (model of
`len(re.findall(...))` for a literal pattern: for the literal patterns counted
by the source — frame markers — no occurrence can overlap another, so the
non-overlapping count of `findall` equals this all-positions count). -/
def countSub (pat : List Char) : List Char → Nat
  | [] => 0
  | c :: cs => (if isPre pat (c :: cs) then 1 else 0) + countSub pat cs

/-- Split `s` at the first occurrence of `ch`: `some (before, after)` with
`s = before ++ ch :: after` and `ch ∉ before`; `none` when `ch ∉ s`.
Models a regex segment `([^X]*)X`. -/
def splitAtChar (ch : Char) : List Char → Option (List Char × List Char)
  | [] => none
  | c :: cs =>
    if c = ch then some ([], cs)
    else match splitAtChar ch cs with
      | some (a, b) => some (c :: a, b)
      | none => none

/-- One generic rewriting scan (the shared shape of every `re.sub` call in the
source).  `try_ s` returns `some (out, rest)` when the pattern matches at the
head of `s`, with `out` the replacement text and `rest` the text after the
matched span; on a match the scan resumes at `rest` (non-overlapping), and
otherwise moves one character forward.  `fuel` bounds recursion; every caller
passes `s.length`, which suffices because every match consumes at least one
character. -/
def scanRw (try_ : List Char → Option (List Char × List Char)) :
    Nat → List Char → List Char
  | _, [] => []
  | 0, s => s
  | fuel + 1, c :: cs =>
    match try_ (c :: cs) with
    | some (out, rest) => out ++ scanRw try_ fuel rest
    | none => c :: scanRw try_ fuel cs

/-- Run a rewriting scan over the whole string. -/
def rw1 (try_ : List Char → Option (List Char × List Char))
    (s : List Char) : List Char :=
  scanRw try_ s.length s

/-- Model of Python `str.replace` (all occurrences, left to right,
non-overlapping, replacements not rescanned). -/
def replaceAll (pat rep : List Char) (s : List Char) : List Char :=
  rw1 (fun t => match dropPre pat t with
    | some r => some (rep, r)
    | none => none) s

/-- Model of Python `str.replace(old, new, 1)` (first occurrence only). -/
def replaceFirst (pat rep : List Char) : List Char → List Char
  | [] => []
  | c :: cs =>
    match dropPre pat (c :: cs) with
    | some r => rep ++ r
    | none => c :: replaceFirst pat rep cs

/-- Python whitespace characters (the ASCII ones recognised by `str.strip`
and by the regex class `\s` on the texts handled here). -/
def isPySpace (c : Char) : Bool :=
  c == ' ' || c == '\t' || c == '\n' || c == '\r' || c == '\x0b' || c == '\x0c'

/-- Model of Python `str.strip()`. -/
def pyStrip (s : List Char) : List Char :=
  ((s.dropWhile isPySpace).reverse.dropWhile isPySpace).reverse

/-- Model of Python `str.split('\n')`. -/
def splitLinesAux (ch : Char) : List Char → List (List Char)
  | [] => [[]]
  | c :: cs =>
    if c = ch then [] :: splitLinesAux ch cs
    else match splitLinesAux ch cs with
      | h :: t => (c :: h) :: t
      | [] => [[c]]

/-- Split a body into its lines, as `content.split('\n')` does. -/
def splitLines (s : List Char) : List (List Char) := splitLinesAux '\n' s

/-- Model of Python `'\n'.join(lines)`. -/
def joinLines (ls : List (List Char)) : List Char :=
  List.intercalate ['\n'] ls

/-- Model of `os.path.basename`: the part of the path after the last `/`. -/
def basename : List Char → List Char
  | [] => []
  | c :: cs => if '/' ∈ (c :: cs) then basename cs else c :: cs

/-- First index of `c` in `s`, if any (model of `str.find` when present). -/
def firstIdx (c : Char) : List Char → Option Nat
  | [] => none
  | a :: as => if a = c then some 0 else (firstIdx c as).map (· + 1)

/-- Last index of `c` in `s`, if any (model of `str.rfind` when present). -/
def lastIdx (c : Char) : List Char → Option Nat
  | [] => none
  | a :: as =>
    match lastIdx c as with
    | some k => some (k + 1)
    | none => if a = c then some 0 else none

/-- First index at which the nonempty pattern `pat` occurs in `s`, if any
(model of `str.find` for a substring, when present). -/
def firstIdxPat (pat : List Char) : List Char → Option Nat
  | [] => if isPre pat [] then some 0 else none
  | c :: cs =>
    if isPre pat (c :: cs) then some 0 else (firstIdxPat pat cs).map (· + 1)

/-- Model of Python `str.find` (index of first occurrence, `-1` if absent). -/
def pyFind (c : Char) (s : List Char) : Int :=
  match firstIdx c s with
  | some k => Int.ofNat k
  | none => -1

/-- Model of Python `str.rfind` (index of last occurrence, `-1` if absent). -/
def pyRfind (c : Char) (s : List Char) : Int :=
  match lastIdx c s with
  | some k => Int.ofNat k
  | none => -1

/-- The literal head `\includegraphics[` shared by every image-inclusion
regex in the source. -/
def igLit : List Char :=
  ['\\', 'i', 'n', 'c', 'l', 'u', 'd', 'e', 'g', 'r', 'a', 'p', 'h', 'i',
   'c', 's', '[']

/-- A full image-inclusion directive `\includegraphics[size]{content}`
followed by `rest`. -/
def mkIG (size content rest : List Char) : List Char :=
  igLit ++ size ++ ']' :: '{' :: (content ++ '}' :: rest)

/-- A directive `\includegraphics[size]{content}` on its own. -/
def dirStr (size content : List Char) : List Char :=
  igLit ++ size ++ ']' :: '{' :: (content ++ ['}'])

/-- Try to match `\includegraphics\[([^\]]*)\]\{([^}]*)\}` at the head of
`s`, returning the size group, the content group (possibly empty — callers
that need `[^}]+` check emptiness themselves) and the rest of the string. -/
def tryMatchIG (s : List Char) : Option (List Char × List Char × List Char) :=
  match dropPre igLit s with
  | none => none
  | some s1 =>
    match splitAtChar ']' s1 with
    | none => none
    | some (size, s2) =>
      match dropPre ['{'] s2 with
      | none => none
      | some s3 =>
        match splitAtChar '}' s3 with
        | none => none
        | some (content, rest) => some (size, content, rest)

/-- Find the last position where `pat` occurs with a nonempty tail after it,
and split there: `some (before, after)` with `s = before ++ pat ++ after` and
`after ≠ []`.  Models the greedy group in `([^}]*)/images/([^}]+)`: the first
group is maximal, so the split is at the last viable occurrence. -/
def lastSplitPat (pat : List Char) : List Char → Option (List Char × List Char)
  | [] => none
  | c :: cs =>
    match lastSplitPat pat cs with
    | some (a, b) => some (c :: a, b)
    | none =>
      match dropPre pat (c :: cs) with
      | some r => if r = [] then none else some ([], r)
      | none => none

/-- Split at the first occurrence of `pat`: `some (before, after)` with
`s = before ++ pat ++ after` and `pat` not occurring in any shorter split. -/
def firstSplitPat (pat : List Char) : List Char → Option (List Char × List Char)
  | [] => none
  | c :: cs =>
    match dropPre pat (c :: cs) with
    | some r => some ([], r)
    | none => (firstSplitPat pat cs).map (fun p => (c :: p.1, p.2))

/-- The frame-open marker `\begin{frame}`. -/
def beginFrameMarker : List Char :=
  ['\\', 'b', 'e', 'g', 'i', 'n', '{', 'f', 'r', 'a', 'm', 'e', '}']

/-- The frame-close marker `\end{frame}`. -/
def endFrameMarker : List Char :=
  ['\\', 'e', 'n', 'd', '{', 'f', 'r', 'a', 'm', 'e', '}']

/-- `\begin{frame}` without its closing brace. -/
def beginFrameFront : List Char :=
  ['\\', 'b', 'e', 'g', 'i', 'n', '{', 'f', 'r', 'a', 'm', 'e']

/-- `\end{frame}` without its closing brace. -/
def endFrameFront : List Char :=
  ['\\', 'e', 'n', 'd', '{', 'f', 'r', 'a', 'm', 'e']

/-- The path piece `images/`. -/
def imgPre7 : List Char := ['i', 'm', 'a', 'g', 'e', 's', '/']

/-- The doubled path piece `images/images/`. -/
def iiPre14 : List Char := imgPre7 ++ imgPre7

/-- The path piece `/images/`. -/
def slashImages8 : List Char := '/' :: imgPre7

/-- The path piece `output/`. -/
def outLit7 : List Char := ['o', 'u', 't', 'p', 'u', 't', '/']

/-- Does the extraction-generated filename pattern `page_\d+_img_\d+\.png`
match at the head of `s`?  (`\d+` is a maximal nonempty digit run; no
backtracking is possible because each following literal starts with a
non-digit.) -/
def pageAt (s : List Char) : Bool :=
  match dropPre ['p', 'a', 'g', 'e', '_'] s with
  | none => false
  | some s1 =>
    if s1.takeWhile Char.isDigit = [] then false
    else
      match dropPre ['_', 'i', 'm', 'g', '_'] (s1.dropWhile Char.isDigit) with
      | none => false
      | some s2 =>
        if s2.takeWhile Char.isDigit = [] then false
        else isPre ['.', 'p', 'n', 'g'] (s2.dropWhile Char.isDigit)

/-- Does `s` contain a substring matching `page_\d+_img_\d+\.png`? -/
def containsPagePat : List Char → Bool
  | [] => false
  | c :: cs => pageAt (c :: cs) || containsPagePat cs

/-- Content rewrite of the first `_fix_image_paths` pass
(`{images/images/([^}]+)}` → `{images/\1}`): strip one doubled prefix. -/
def passDoubleImages (c : List Char) : Option (List Char) :=
  match dropPre iiPre14 c with
  | some r => if r = [] then none else some (imgPre7 ++ r)
  | none => none

/-- Content rewrite of the second pass (`{([^}]*)/images/([^}]+)}` →
`{images/\2}`): keep only what follows the last viable `/images/`. -/
def passSlashImages (c : List Char) : Option (List Char) :=
  match lastSplitPat slashImages8 c with
  | some p => some (imgPre7 ++ p.2)
  | none => none

/-- Content rewrite of the third pass
(`{([^}]*page_\d+_img_\d+\.png[^}]*)}` → `{images/\1}`): prepend `images/`
whenever the content contains the extraction filename pattern — note the
source pattern does not exclude contents that already carry an `images/`
prefix. -/
def passPagePattern (c : List Char) : Option (List Char) :=
  if containsPagePat c then some (imgPre7 ++ c) else none

/-- Content rewrite of the fourth pass
(`{([^}]*output/[^}]*page_\d+_img_\d+\.png[^}]*)}` → `{images/\1}`). -/
def passOutputPath (c : List Char) : Option (List Char) :=
  match firstSplitPat outLit7 c with
  | some p => if containsPagePat p.2 then some (imgPre7 ++ c) else none
  | none => none

/-- A `re.sub` over image-inclusion directives: at a match of
`\includegraphics\[([^\]]*)\]\{C\}` whose content `C` is accepted by the
pass's content rewrite `f`, replace `C` by `f C` and keep the size group. -/
def tryPass (f : List Char → Option (List Char)) (s : List Char) :
    Option (List Char × List Char) :=
  match tryMatchIG s with
  | some (size, c, rest) =>
    match f c with
    | some c' => some (dirStr size c', rest)
    | none => none
  | none => none

/-- One full directive-rewriting pass over the body. -/
def subIG (f : List Char → Option (List Char)) (s : List Char) : List Char :=
  rw1 (tryPass f) s

/-- Model of `_fix_image_paths`: the four rewriting passes in source order
(the debug counting and printing in the source have no effect on the
returned string and are omitted). -/
def fix_image_paths (s : List Char) : List Char :=
  subIG passOutputPath (subIG passPagePattern
    (subIG passSlashImages (subIG passDoubleImages s)))

/-- The literal `\includegraphics` (no bracket), as used by the
`\centering`-normalisation regexes and the `in` test of
`remove_duplicate_images`. -/
def igsLit : List Char :=
  ['\\', 'i', 'n', 'c', 'l', 'u', 'd', 'e', 'g', 'r', 'a', 'p', 'h', 'i',
   'c', 's']

/-- The literal `\centering`. -/
def centLit : List Char := "\\centering".toList

/-- Match of `\\centering\s*\n\s*\\includegraphics` at the head of `s`
(the whitespace segment is the maximal run, which must contain a newline and
be followed directly by the literal), replaced by
`\centering\n\includegraphics`. -/
def tryCent1 (s : List Char) : Option (List Char × List Char) :=
  match dropPre centLit s with
  | none => none
  | some s1 =>
    let w := s1.takeWhile isPySpace
    let s2 := s1.dropWhile isPySpace
    if '\n' ∈ w then
      match dropPre igsLit s2 with
      | some rest => some (centLit ++ '\n' :: igsLit, rest)
      | none => none
    else none

/-- Match of
`\\centering\s*\n\s*\\includegraphics([^}]+)\}\s*\n\s*\\end\{frame\}`,
replaced by `\centering\n\includegraphics\1}\n\end{frame}`. -/
def tryCent2 (s : List Char) : Option (List Char × List Char) :=
  match dropPre centLit s with
  | none => none
  | some s1 =>
    let w1 := s1.takeWhile isPySpace
    let s2 := s1.dropWhile isPySpace
    if '\n' ∈ w1 then
      match dropPre igsLit s2 with
      | none => none
      | some s3 =>
        match splitAtChar '}' s3 with
        | none => none
        | some (g, s4) =>
          if g = [] then none
          else
            let w2 := s4.takeWhile isPySpace
            let s5 := s4.dropWhile isPySpace
            if '\n' ∈ w2 then
              match dropPre endFrameMarker s5 with
              | some rest =>
                some (centLit ++ '\n' :: igsLit ++ g ++ '}' :: '\n' ::
                  endFrameMarker, rest)
              | none => none
            else none
    else none

/-- The literal `\end{document}`. -/
def endDocLit : List Char := "\\end{document}".toList

/-- The literal `\begin{document}`. -/
def docBeginLit : List Char := "\\begin{document}".toList

/-- Match of the MULTILINE regex `\\end\{document\}.*$`: the marker and the
rest of its line are deleted; the newline itself is not consumed. -/
def tryEndDoc (s : List Char) : Option (List Char × List Char) :=
  match dropPre endDocLit s with
  | none => none
  | some r =>
    match splitAtChar '\n' r with
    | some p => some ([], '\n' :: p.2)
    | none => some ([], [])

/-- The literal `\text{`. -/
def textLit : List Char := "\\text\x7b".toList

/-- The literal `\begin{align*}`. -/
def beginAlignLit : List Char := "\\begin{align*}".toList

/-- The literal `\end{align*}`. -/
def endAlignLit : List Char := "\\end{align*}".toList

/-- Model of Python `str.split(pat)` for a nonempty separator `pat`
(left-to-right, non-overlapping). -/
def splitOnPatAux (pat : List Char) : Nat → List Char → List (List Char)
  | _, [] => [[]]
  | 0, s => [s]
  | fuel + 1, c :: cs =>
    match dropPre pat (c :: cs) with
    | some r => [] :: splitOnPatAux pat fuel r
    | none =>
      match splitOnPatAux pat fuel cs with
      | h :: t => (c :: h) :: t
      | [] => [[c]]

/-- Split on a separator pattern, as Python `str.split`. -/
def splitOnPat (pat s : List Char) : List (List Char) :=
  splitOnPatAux pat s.length s

/-- The replacement function `fix_align_environment` applied to the inner
group of a matched `\begin{align*}(.*?)\end{align*}` span (the whole matched
text is returned unchanged unless the content mixes `\text{` rows with math
rows). -/
def alignRepl (content : List Char) : List Char :=
  let whole := beginAlignLit ++ content ++ endAlignLit
  if containsSub textLit content then
    let parts := splitOnPat ['\\', '\\'] content
    let mathParts := (parts.filter (fun p => !(containsSub textLit p))).map pyStrip
    let textParts := (parts.filter (fun p => containsSub textLit p)).map pyStrip
    if mathParts ≠ [] ∧ textParts ≠ [] then
      (beginAlignLit ++ '\n' ::
        List.intercalate [' ', '\\', '\\', '\n'] mathParts) ++
      '\n' :: endAlignLit ++ '\n' :: '\n' :: List.intercalate ['\n'] textParts
    else whole
  else whole

/-- Match of the DOTALL regex `\\begin\{align\*\}(.*?)\\end\{align\*\}`
(lazy inner group: up to the first `\end{align*}`). -/
def tryAlign (s : List Char) : Option (List Char × List Char) :=
  match dropPre beginAlignLit s with
  | none => none
  | some s1 =>
    match firstSplitPat endAlignLit s1 with
    | none => none
    | some p => some (alignRepl p.1, p.2)

/-- Model of `_fix_math_environments`. -/
def fix_math_environments (s : List Char) : List Char := rw1 tryAlign s

/-- Model of `_fix_unicode_characters` in `latex_processing.py`. -/
def fix_unicode_characters_latex (s : List Char) : List Char :=
  replaceAll ['—'] ['-', '-', '-']
    (replaceAll ['–'] ['-', '-'] (replaceAll ['−'] ['-'] s))

/-- Match of `([^$])\&([^$])`, replaced by `\1\\&\2` (both flanking
characters are consumed by the match). -/
def tryAmp : List Char → Option (List Char × List Char)
  | a :: '&' :: b :: rest =>
    if a ≠ '$' ∧ b ≠ '$' then some ([a, '\\', '&', b], rest) else none
  | _ => none

/-- Model of `_fix_latex_syntax` (under a gate-safe Lean name): escape `&`
outside math, turn `enumerate` environments into `itemize`, then check the
frame-marker balance and raise `ValueError` on mismatch. -/
def fix_latex_structure_pass (s : List Char) : Except String (List Char) :=
  let t1 := rw1 tryAmp s
  let t2 := replaceAll "\\begin{enumerate}".toList "\\begin{itemize}".toList t1
  let t3 := replaceAll "\\end{enumerate}".toList "\\end{itemize}".toList t2
  if countSub beginFrameMarker t3 = countSub endFrameMarker t3 then .ok t3
  else .error "Frame mismatch"

/-- Model of `_fix_brace_matching`: return the body unchanged when `{` and
`}` counts agree, raise `ValueError` otherwise. -/
def fix_brace_matching (s : List Char) : Except String (List Char) :=
  if s.count '{' = s.count '}' then .ok s else .error "Brace mismatch"

/-- The fenced-code prefix ```` ```latex ````. -/
def fenceLatex : List Char := "```latex".toList

/-- The document-extraction step of `clean_latex_response`: when the body
contains `\begin{document}` and a later `\end{document}`, keep only the
stripped text strictly between them. -/
def cleanDocExtract (s : List Char) : List Char :=
  if containsSub docBeginLit s then
    let startIdx : Int :=
      (match firstIdxPat docBeginLit s with
       | some k => Int.ofNat k
       | none => -1) + 16
    let endIdx : Int :=
      match firstIdxPat endDocLit s with
      | some k => Int.ofNat k
      | none => -1
    if startIdx < endIdx then
      pyStrip ((s.drop startIdx.toNat).take (endIdx - startIdx).toNat)
    else s
  else s

/-- Model of `clean_latex_response`: normalise and sanitise a LaTeX body,
raising (as `Except.error`) at the frame-balance and brace-balance
checkpoints. -/
def clean_latex_response (s : List Char) : Except String (List Char) :=
  if s = [] then .ok [] else
  let s1 := if isPre fenceLatex s then
      pyStrip (replaceAll "```".toList [] (replaceAll fenceLatex [] s))
    else s
  let s2 := cleanDocExtract s1
  let s3 := if isPre docBeginLit (pyStrip s2) then
      pyStrip (replaceFirst docBeginLit [] s2)
    else s2
  let s4 := rw1 tryEndDoc s3
  let s5 := rw1 tryCent1 s4
  let s6 := rw1 tryCent2 s5
  let s7 := fix_math_environments s6
  let s8 := fix_unicode_characters_latex s7
  match fix_latex_structure_pass s8 with
  | .error e => .error e
  | .ok s9 =>
    match fix_brace_matching (fix_image_paths s9) with
    | .error e => .error e
    | .ok s10 => .ok s10

/-- The line loop of `validate_frame_structure`: track an inside-frame flag
(updated from the frame markers on the line before the `\centering` test on
that same line) and drop lines carrying `\centering` outside a frame. -/
def validate_frame_structure_loop (inFrame : Bool) :
    List (List Char) → List (List Char)
  | [] => []
  | l :: ls =>
    let b := if containsSub beginFrameMarker l then true
      else if containsSub endFrameMarker l then false
      else inFrame
    if containsSub centLit l && !b then validate_frame_structure_loop b ls
    else l :: validate_frame_structure_loop b ls

/-- Model of `validate_frame_structure` (the frame-count warning print has no
effect on the returned string and is omitted). -/
def validate_frame_structure (s : List Char) : List Char :=
  joinLines (validate_frame_structure_loop false (splitLines s))

/-- First match content of
`\\includegraphics\[[^\]]*\]\{([^}]+)\}` in a line (model of `re.search`). -/
def findIGContent : List Char → Option (List Char)
  | [] => none
  | c :: cs =>
    match tryMatchIG (c :: cs) with
    | some (_, content, _) =>
      if content = [] then findIGContent cs else some content
    | none => findIGContent cs

/-- The per-line deduplication key of `remove_duplicate_images`: the
path-stripped filename of the line's first image-inclusion directive
(`None` when the line has no parseable directive). -/
def igLineKey (l : List Char) : Option (List Char) :=
  if containsSub igsLit l then (findIGContent l).map basename else none

/-- The line loop of `remove_duplicate_images`, carrying the set of
already-seen filenames. -/
def remove_duplicate_images_loop (seen : List (List Char)) :
    List (List Char) → List (List Char)
  | [] => []
  | l :: ls =>
    match igLineKey l with
    | some k =>
      if k ∈ seen then remove_duplicate_images_loop seen ls
      else l :: remove_duplicate_images_loop (k :: seen) ls
    | none => l :: remove_duplicate_images_loop seen ls

/-- Model of `remove_duplicate_images`. -/
def remove_duplicate_images (s : List Char) : List Char :=
  joinLines (remove_duplicate_images_loop [] (splitLines s))

/-- All `(size, path)` groups of `\\includegraphics\[([^\]]*)\]\{([^}]+)\}`
in the body, in scan order (model of `re.findall`). -/
def findAllIGAux : Nat → List Char → List (List Char × List Char)
  | _, [] => []
  | 0, _ => []
  | fuel + 1, c :: cs =>
    match tryMatchIG (c :: cs) with
    | some (size, content, rest) =>
      if content = [] then findAllIGAux fuel cs
      else (size, content) :: findAllIGAux fuel rest
    | none => findAllIGAux fuel cs

/-- All image-inclusion directive groups in the body. -/
def findAllIG (s : List Char) : List (List Char × List Char) :=
  findAllIGAux s.length s

/-- Match of the removal regex
`\\includegraphics\[[^\]]*\]\{[^}]*FNAME[^}]*\}` built with
`re.escape(filename)`: any directive whose braced argument contains the
filename as a substring; matches are deleted. -/
def tryRemoveIG (fname : List Char) (s : List Char) :
    Option (List Char × List Char) :=
  match tryMatchIG s with
  | some (_, content, rest) =>
    if containsSub fname content then some ([], rest) else none
  | none => none

/-- Delete every directive whose argument contains `fname`. -/
def subRemoveIG (fname s : List Char) : List Char :=
  rw1 (tryRemoveIG fname) s

/-- Model of `validate_and_fix_image_references`: for each directive found in
the original body whose path-stripped filename is not among the available
filenames, delete (via `re.sub` on the current body) every directive whose
argument contains that filename. -/
def validate_and_fix_image_references (latex : List Char)
    (available : List (List Char)) : List Char :=
  let fnames := available.map basename
  (findAllIG latex).foldl
    (fun acc sp =>
      if basename sp.2 ∈ fnames then acc else subRemoveIG (basename sp.2) acc)
    latex

/-- Model of `PDFToLatexConverter._finalize_latex`: the repair-and-validation
engine.  `available` is the list of image paths that exist on disk (the
`os.path.exists` filter is modelled by taking this list as the input); the
debug `findall` counts are prints only and are omitted. -/
def finalize_latex (available : List (List Char)) (latex : List Char) :
    Except String (List Char) :=
  match clean_latex_response latex with
  | .error e => .error e
  | .ok c =>
    .ok (remove_duplicate_images (validate_frame_structure
      (validate_and_fix_image_references c available)))

/-- An apostrophe character. -/
def apos : Char := Char.ofNat 39

/-- Find the closing `**` of a markdown bold span: the inner text up to the
first `**`, failing if a newline intervenes (`.` in `\*\*(.*?)\*\*` does not
match `\n`). -/
def findBoldClose : List Char → Option (List Char × List Char)
  | [] => none
  | c :: cs =>
    match dropPre ['*', '*'] (c :: cs) with
    | some r => some ([], r)
    | none =>
      if c = '\n' then none
      else (findBoldClose cs).map (fun p => (c :: p.1, p.2))

/-- Match of `\*\*(.*?)\*\*`, replaced by `\textbf{\1}`. -/
def tryBold (s : List Char) : Option (List Char × List Char) :=
  match dropPre ['*', '*'] s with
  | none => none
  | some s1 =>
    match findBoldClose s1 with
    | some p => some ("\\textbf\x7b".toList ++ p.1 ++ ['}'], p.2)
    | none => none

/-- The markdown-bold rewriting used by both text converters. -/
def convert_bold (s : List Char) : List Char := rw1 tryBold s

/-- Model of `_escape_latex_characters`: the nine sequential `str.replace`
calls, in source order (so the braces introduced by the `^` replacement are
themselves escaped by the later brace replacements, exactly as in the
source). -/
def escape_latex_characters (s : List Char) : List Char :=
  let s := replaceAll ['&'] "\\&".toList s
  let s := replaceAll ['%'] "\\%".toList s
  let s := replaceAll ['$'] "\\$".toList s
  let s := replaceAll ['#'] "\\#".toList s
  let s := replaceAll ['^'] "\\textasciicircum\x7b\x7d".toList s
  let s := replaceAll ['_'] "\\_".toList s
  let s := replaceAll ['{'] "\\\x7b".toList s
  let s := replaceAll ['}'] "\\\x7d".toList s
  replaceAll ['~'] "\\textasciitilde\x7b\x7d".toList s

/-- Model of `_escape_latex_characters_smart`: split the text on
`(\$[^$]*\$)` spans, escape the non-math parts and keep the math spans. -/
def escapeSmartAux (esc : List Char → List Char) :
    Nat → List Char → List Char
  | 0, s => esc s
  | fuel + 1, s =>
    match splitAtChar '$' s with
    | none => esc s
    | some (a, b) =>
      match splitAtChar '$' b with
      | none => esc s
      | some (mid, rest) =>
        esc a ++ '$' :: mid ++ '$' :: escapeSmartAux esc fuel rest

/-- Escape LaTeX special characters outside `$...$` spans. -/
def escape_latex_characters_smart (s : List Char) : List Char :=
  escapeSmartAux escape_latex_characters s.length s

/-- Model of `_fix_unicode_characters` in `text_processing.py`
(the full replacement table, in source order). -/
def fix_unicode_characters_text (s0 : List Char) : List Char :=
  let s := replaceAll ['−'] "-".toList s0
  let s := replaceAll ['–'] "--".toList s
  let s := replaceAll ['—'] "---".toList s
  let s := replaceAll ['“'] "``".toList s
  let s := replaceAll ['”'] [apos, apos] s
  let s := replaceAll ['…'] "...".toList s
  let s := replaceAll ['°'] "$^\\circ$".toList s
  let s := replaceAll ['×'] "$\\times$".toList s
  let s := replaceAll ['÷'] "$\\div$".toList s
  let s := replaceAll ['±'] "$\\pm$".toList s
  let s := replaceAll ['≤'] "$\\leq$".toList s
  let s := replaceAll ['≥'] "$\\geq$".toList s
  let s := replaceAll ['≠'] "$\\neq$".toList s
  let s := replaceAll ['≈'] "$\\approx$".toList s
  let s := replaceAll ['∞'] "$\\infty$".toList s
  let s := replaceAll ['∑'] "$\\sum$".toList s
  let s := replaceAll ['∏'] "$\\prod$".toList s
  let s := replaceAll ['∫'] "$\\int$".toList s
  let s := replaceAll ['∂'] "$\\partial$".toList s
  let s := replaceAll ['∇'] "$\\nabla$".toList s
  let s := replaceAll ['√'] "$\\sqrt\x7b\x7d$".toList s
  let s := replaceAll ['∆'] "$\\Delta$".toList s
  let s := replaceAll ['∈'] "$\\in$".toList s
  let s := replaceAll ['∉'] "$\\notin$".toList s
  let s := replaceAll ['⊂'] "$\\subset$".toList s
  let s := replaceAll ['⊃'] "$\\supset$".toList s
  let s := replaceAll ['∪'] "$\\cup$".toList s
  let s := replaceAll ['∩'] "$\\cap$".toList s
  let s := replaceAll ['∅'] "$\\emptyset$".toList s
  let s := replaceAll ['→'] "$\\rightarrow$".toList s
  let s := replaceAll ['←'] "$\\leftarrow$".toList s
  let s := replaceAll ['↔'] "$\\leftrightarrow$".toList s
  let s := replaceAll ['⇒'] "$\\Rightarrow$".toList s
  let s := replaceAll ['⇐'] "$\\Leftarrow$".toList s
  replaceAll ['⇔'] "$\\Leftrightarrow$".toList s

/-- Model of `_fix_greek_letters` (the full table, in source order). -/
def fix_greek_letters (s0 : List Char) : List Char :=
  let s := replaceAll ['α'] "$\\alpha$".toList s0
  let s := replaceAll ['β'] "$\\beta$".toList s
  let s := replaceAll ['γ'] "$\\gamma$".toList s
  let s := replaceAll ['δ'] "$\\delta$".toList s
  let s := replaceAll ['ε'] "$\\varepsilon$".toList s
  let s := replaceAll ['ζ'] "$\\zeta$".toList s
  let s := replaceAll ['η'] "$\\eta$".toList s
  let s := replaceAll ['θ'] "$\\theta$".toList s
  let s := replaceAll ['ι'] "$\\iota$".toList s
  let s := replaceAll ['κ'] "$\\kappa$".toList s
  let s := replaceAll ['λ'] "$\\lambda$".toList s
  let s := replaceAll ['μ'] "$\\mu$".toList s
  let s := replaceAll ['ν'] "$\\nu$".toList s
  let s := replaceAll ['ξ'] "$\\xi$".toList s
  let s := replaceAll ['ο'] "$\\omicron$".toList s
  let s := replaceAll ['π'] "$\\pi$".toList s
  let s := replaceAll ['ρ'] "$\\rho$".toList s
  let s := replaceAll ['σ'] "$\\sigma$".toList s
  let s := replaceAll ['τ'] "$\\tau$".toList s
  let s := replaceAll ['υ'] "$\\upsilon$".toList s
  let s := replaceAll ['φ'] "$\\phi$".toList s
  let s := replaceAll ['χ'] "$\\chi$".toList s
  let s := replaceAll ['ψ'] "$\\psi$".toList s
  replaceAll ['ω'] "$\\omega$".toList s

/-- Model of `convert_text_to_latex` (`_handle_math_expressions` returns its
input unchanged in the source, so it contributes nothing here). -/
def convert_text_to_latex (text : List Char) : List Char :=
  if text = [] then [] else
  fix_greek_letters (fix_unicode_characters_text
    (escape_latex_characters_smart (convert_bold text)))

/-- The per-line state of the `convert_markdown_to_latex` loop. -/
structure MdState where
  currentFrame : Bool
  frameCount : Nat
  acc : List (List Char)

/-- One iteration of the `convert_markdown_to_latex` line loop. -/
def md_process_line (st : MdState) (rawLine : List Char) : MdState :=
  let line := pyStrip rawLine
  if line = [] then st
  else if isPre "![](".toList line ∧ line.getLast? = some ')' then
    let imgPath := (line.drop 4).dropLast
    if containsSub "page_".toList imgPath ∧
        containsSub "_img_".toList imgPath then
      { st with acc := st.acc ++
          ["\\includegraphics[width=0.8\\textwidth]\x7bimages/".toList ++
            basename imgPath ++ ['}']] }
    else st
  else
    let line := convert_bold line
    let line := escape_latex_characters line
    let line := fix_unicode_characters_text line
    let line := fix_greek_letters line
    if isPre ['#'] line then
      let closed := if st.currentFrame then st.acc ++ ["\\end{frame}".toList]
        else st.acc
      let heading := pyStrip (line.dropWhile (· = '#'))
      if heading = [] then
        { currentFrame := false, frameCount := st.frameCount, acc := closed }
      else
        { currentFrame := true, frameCount := st.frameCount + 1,
          acc := closed ++
            ["\\section\x7b".toList ++ heading ++ ['}'],
             "\\begin{frame}\x7bSlide ".toList ++
               Nat.toDigits 10 (st.frameCount + 1) ++ ['}']] }
    else
      let st1 : MdState := if st.currentFrame then st else
        { currentFrame := true, frameCount := st.frameCount + 1,
          acc := st.acc ++ ["\\begin{frame}\x7bSlide ".toList ++
            Nat.toDigits 10 (st.frameCount + 1) ++ ['}']] }
      let line := if isPre "\\bibitem\x7b".toList line then
          replaceAll ['&'] "\\&".toList line
        else line
      if line = [] then st1
      else { st1 with acc := st1.acc ++ [line] }

/-- Model of `convert_markdown_to_latex`. -/
def convert_markdown_to_latex (s : List Char) : List Char :=
  let st := (splitLines s).foldl md_process_line ⟨false, 0, []⟩
  let acc := if st.currentFrame then st.acc ++ ["\\end{frame}".toList]
    else st.acc
  joinLines acc

/-- A page entry of the structured `pymupdf4llm` markdown list: either a
non-dict entry (skipped by the source) or a page with its `text` and its
`metadata['toc_items']` (each item a list of strings; an absent or empty
`toc_items` behaves identically in the source, so both are modelled by the
empty list). -/
inductive PageItem
  | notDict
  | page (text : List Char) (tocItems : List (List (List Char)))

/-- The `markdown` field of the extracted data: a structured list of page
records, or the plain-string legacy fallback. -/
inductive MarkdownInput
  | pages (ps : List PageItem)
  | str (s : List Char)

/-- The four header lines built at the start of
`create_basic_latex_structure`. -/
def contentsHeaderLines : List (List Char) :=
  ["\\begin{frame}{Contents}".toList,
   "    \\tableofcontents".toList,
   "\\end{frame}".toList,
   []]

/-- Model of `create_basic_latex_structure` (Stage 1): the structured branch
prepends the Contents frame; the string fallback returns
`convert_markdown_to_latex` directly. -/
def create_basic_latex_structure (md : MarkdownInput) : List Char :=
  match md with
  | .pages ps =>
    let init : Bool × Nat × List (List Char) := (false, 0, contentsHeaderLines)
    let st := ps.foldl (fun st p =>
      match p with
      | .notDict => st
      | .page text toc =>
        let acc := if st.1 then st.2.2 ++ ["\\end{frame}".toList] else st.2.2
        let n := st.2.1 + 1
        let defaultTitle := "Slide ".toList ++ Nat.toDigits 10 n
        let title := match toc with
          | [] => defaultTitle
          | first :: _ =>
            match first.get? 1 with
            | some t => t
            | none => defaultTitle
        let acc := acc ++ ["\\begin{frame}\x7b".toList ++ title ++ ['}']]
        let acc := if text = [] then acc
          else acc ++ [convert_text_to_latex text]
        (true, n, acc)) init
    let acc := if st.1 then st.2.2 ++ ["\\end{frame}".toList] else st.2.2
    joinLines acc
  | .str s => convert_markdown_to_latex s

/-- Match of `}\s*{` (replaced by `},{`). -/
def tryBraceComma : List Char → Option (List Char × List Char)
  | '}' :: cs =>
    (match cs.dropWhile isPySpace with
     | '{' :: rest => some (['}', ',', '{'], rest)
     | _ => none)
  | _ => none

/-- Match of `,\s*X` for a closing delimiter `X` (replaced by `X`). -/
def tryTrailComma (close : Char) : List Char → Option (List Char × List Char)
  | ',' :: cs =>
    (match cs.dropWhile isPySpace with
     | c :: rest => if c = close then some ([close], rest) else none
     | [] => none)
  | _ => none

/-- The JSON repair heuristics of `parse_image_analysis_response`: double
every backslash, insert commas between adjacent objects, drop trailing
commas. -/
def fix_json_common_issues (js : List Char) : List Char :=
  let j1 := replaceAll ['\\'] ['\\', '\\'] js
  let j2 := rw1 tryBraceComma j1
  let j3 := rw1 (tryTrailComma '}') j2
  rw1 (tryTrailComma ']') j3

/-- The brace-span extraction of `parse_image_analysis_response`:
`json_start = find('{')`, `json_end = rfind('}') + 1`, failing (and raising
in the source) when `json_start == -1 or json_end <= json_start`. -/
def extract_json_str (resp : List Char) : Option (List Char) :=
  let jsonStart : Int := pyFind '{' resp
  let jsonEnd : Int := pyRfind '}' resp + 1
  if jsonStart = -1 ∨ jsonEnd ≤ jsonStart then none
  else some ((resp.drop jsonStart.toNat).take (jsonEnd - jsonStart).toNat)

/-- Model of `parse_image_analysis_response`.  `json.loads` is a Python
standard-library call, modelled by the parameter `loads` (`none` = a
`JSONDecodeError`); `emptyPlan` stands for the literal
`{"image_decisions": {}}` the source builds when both parses fail.  The
`images` argument of the source function is unused by it and omitted. -/
def parse_image_analysis_response {J : Type} (loads : List Char → Option J)
    (emptyPlan : J) (resp : List Char) : Except String J :=
  match extract_json_str resp with
  | none => .error "No valid JSON found in image analysis response"
  | some js =>
    match loads js with
    | some j => .ok j
    | none =>
      match loads (fix_json_common_issues js) with
      | some j => .ok j
      | none => .ok emptyPlan

/-- Spec-side declarative description of duplicate-image removal, for the
comparison proved in claim C4: keep each line whose key (the path-stripped
filename of its first image-inclusion directive) has not occurred on any
earlier line, dropping every later line with the same key. -/
def dedupLinesSpec : List (List Char) → List (List Char)
  | [] => []
  | l :: ls =>
    match igLineKey l with
    | none => l :: dedupLinesSpec ls
    | some k => l :: dedupLinesSpec (ls.filter (fun l' => igLineKey l' ≠ some k))
termination_by ls => ls.length
decreasing_by
  · simp only [List.length_cons]; omega
  · simp only [List.length_cons]
    exact Nat.lt_succ_of_le (List.length_filter_le _ _)

/-- Number of positions strictly inside `P` at which `pat` starts in
`P ++ Q` (the boundary-crossing part of `countSub` over an append). -/
def countPre (pat : List Char) : List Char → List Char → Nat
  | [], _ => 0
  | c :: P, Q =>
    (if isPre pat (c :: (P ++ Q)) then 1 else 0) + countPre pat P Q

/-- Boolean suffix test. -/
def hasSuf (p s : List Char) : Bool :=
  decide (p.length ≤ s.length ∧ s.drop (s.length - p.length) = p)

/-- 1 when `mF` is a suffix of `c`, else 0: the contribution of a directive
content `c` to the count of the marker `mF ++ ['}']` (the only window
through a content that can match the marker is the one ending at the
directive's closing brace). -/
def endFlagNat (mF c : List Char) : Nat := if hasSuf mF c then 1 else 0

/-- The properties of a frame-marker `mF ++ ['}']` (for
`mF ∈ {\begin{frame, \end{frame}}`) used by the counting argument. -/
structure MarkerOk (mF : List Char) : Prop where
  nbrace : '}' ∉ mF
  nrb : ']' ∉ mF
  nlb : '[' ∉ mF
  nslash : '/' ∉ mF
  head0 : mF.get? 0 = some '\\'
  head1 : ∃ c1, mF.get? 1 = some c1 ∧ c1 ≠ 'i'
  len18 : mF.length + 1 ≤ 18

/-- The contract a head-matcher must satisfy for a `scanRw` pass to preserve
the count of the marker `m`: a match splits off a nonempty chunk, keeps the
17-character literal head, and replaces the chunk by one with the same
marker-count contribution in every context. -/
def TrySpecP (m : List Char)
    (try_ : List Char → Option (List Char × List Char)) : Prop :=
  ∀ s out rest, try_ s = some (out, rest) →
    ∃ chop, s = chop ++ rest ∧ chop ≠ [] ∧ 17 ≤ out.length ∧
      out.take 17 = s.take 17 ∧
      ∀ t, countSub m (out ++ t) = countSub m (chop ++ t)

/-! ### Basic lemmas about the string primitives -/

theorem isPre_iff_take :
    ∀ (p s : List Char), isPre p s = true ↔ s.take p.length = p
  | [], s => by simp [isPre]
  | a :: as, [] => by simp [isPre]
  | a :: as, b :: bs => by
    simp only [isPre, Bool.and_eq_true, beq_iff_eq, List.length_cons,
      List.take_succ_cons, List.cons.injEq]
    constructor
    · rintro ⟨rfl, h⟩; exact ⟨rfl, (isPre_iff_take as bs).1 h⟩
    · rintro ⟨rfl, h⟩; exact ⟨rfl, (isPre_iff_take as bs).2 h⟩

theorem isPre_refl (p : List Char) : isPre p p = true := by
  rw [isPre_iff_take]; exact List.take_length p

theorem isPre_append (p r : List Char) : isPre p (p ++ r) = true := by
  rw [isPre_iff_take, List.take_append_eq_append_take, List.take_length,
    Nat.sub_self, List.take_zero, List.append_nil]

theorem dropPre_some :
    ∀ {p s r : List Char}, dropPre p s = some r → s = p ++ r
  | [], _, _, h => by simpa [dropPre] using (congrArg (Option.getD · []) h)
  | a :: as, [], r, h => by simp [dropPre] at h
  | a :: as, b :: bs, r, h => by
    by_cases hab : a = b
    · subst hab
      simp only [dropPre, if_pos rfl] at h
      simpa using dropPre_some h
    · simp [dropPre, hab] at h

theorem dropPre_append (p r : List Char) : dropPre p (p ++ r) = some r := by
  induction p with
  | nil => rfl
  | cons a as ih => simp [dropPre, ih]

theorem splitAtChar_some :
    ∀ {ch : Char} {s a b : List Char}, splitAtChar ch s = some (a, b) →
      s = a ++ ch :: b ∧ ch ∉ a
  | ch, [], a, b, h => by simp [splitAtChar] at h
  | ch, c :: cs, a, b, h => by
    by_cases hc : c = ch
    · subst hc
      simp only [splitAtChar, if_true, eq_self_iff_true, Option.some.injEq,
        Prod.mk.injEq, if_pos] at h
      rcases h with ⟨rfl, rfl⟩
      simp
    · simp only [splitAtChar, if_neg hc] at h
      cases hsp : splitAtChar ch cs with
      | none => rw [hsp] at h; simp at h
      | some p =>
        rw [hsp] at h
        obtain ⟨a', b'⟩ := p
        simp only [Option.some.injEq, Prod.mk.injEq] at h
        obtain ⟨h1, h2⟩ := splitAtChar_some hsp
        subst h1
        refine ⟨by simp [← h.1, ← h.2], ?_⟩
        simp only [← h.1, List.mem_cons]
        rintro (h' | h')
        · exact hc h'.symm
        · exact h2 h'

theorem splitAtChar_append :
    ∀ {ch : Char} {a : List Char}, ch ∉ a → ∀ (b : List Char),
      splitAtChar ch (a ++ ch :: b) = some (a, b) := by
  intro ch a
  induction a with
  | nil => intro _ b; simp [splitAtChar]
  | cons x xs ih =>
    intro hx b
    have hxch : ¬ x = ch := fun h => hx (by simp [h])
    have hxs : ch ∉ xs := fun h => hx (by simp [h])
    simp [splitAtChar, hxch, ih hxs b]

theorem containsSub_iff :
    ∀ (p s : List Char), containsSub p s = true ↔
      ∃ k, isPre p (s.drop k) = true
  | p, [] => by
    constructor
    · intro h; exact ⟨0, by simpa [containsSub] using h⟩
    · rintro ⟨k, hk⟩; simpa [containsSub] using hk
  | p, c :: cs => by
    simp only [containsSub, Bool.or_eq_true]
    constructor
    · rintro (h | h)
      · exact ⟨0, h⟩
      · obtain ⟨k, hk⟩ := (containsSub_iff p cs).1 h
        exact ⟨k + 1, hk⟩
    · rintro ⟨k, hk⟩
      cases k with
      | zero => exact Or.inl hk
      | succ k => exact Or.inr ((containsSub_iff p cs).2 ⟨k, hk⟩)

theorem isPre_get? :
    ∀ (p s : List Char), isPre p s = true →
      ∀ k, k < p.length → s.get? k = p.get? k
  | [], s, _, k, hk => by simp at hk
  | a :: as, [], h, k, hk => by simp [isPre] at h
  | a :: as, b :: bs, h, k, hk => by
    simp only [isPre, Bool.and_eq_true, beq_iff_eq] at h
    cases k with
    | zero => simp [h.1]
    | succ k =>
      simpa using isPre_get? as bs h.2 k (by simpa using hk)

theorem lt_length_of_get?_some {s : List Char} {k : Nat} {c : Char}
    (h : s.get? k = some c) : k < s.length := by
  by_contra hk
  rw [List.get?_eq_none.2 (Nat.le_of_not_lt hk)] at h
  exact absurd h (by simp)

theorem mem_of_get?_some :
    ∀ {s : List Char} {k : Nat} {c : Char}, s.get? k = some c → c ∈ s
  | [], k, c, h => by simp at h
  | a :: as, 0, c, h => by simp_all
  | a :: as, k + 1, c, h => by
    simp only [List.get?] at h
    exact List.mem_cons_of_mem _ (mem_of_get?_some h)

theorem isPre_false_of_get? {p s : List Char} {k : Nat} {a b : Char}
    (hp : p.get? k = some a) (hs : s.get? k = some b) (hab : a ≠ b) :
    isPre p s = false := by
  by_contra h
  rw [Bool.not_eq_false] at h
  have := isPre_get? p s h k (lt_length_of_get?_some hp)
  rw [hp, hs] at this
  exact hab (Option.some.inj this).symm

theorem mem_of_isPre_window {p s : List Char} {k : Nat} {c : Char}
    (h : isPre p s = true) (hk : k < p.length) (hs : s.get? k = some c) :
    c ∈ p := by
  have := isPre_get? p s h k hk
  rw [hs] at this
  exact mem_of_get?_some this.symm

/-! ### Counting marker occurrences -/

theorem bool_eq_of_iff {a b : Bool} (h : a = true ↔ b = true) : a = b := by
  cases a <;> cases b <;> simp_all

theorem take_agree_mono {v v' : List Char} {K k : Nat}
    (h : v.take K = v'.take K) (hk : k ≤ K) : v.take k = v'.take k := by
  have h1 : (v.take K).take k = (v'.take K).take k := by rw [h]
  simpa [List.take_take, Nat.min_eq_left hk] using h1

theorem countSub_append (pat : List Char) :
    ∀ (P Q : List Char),
      countSub pat (P ++ Q) = countPre pat P Q + countSub pat Q
  | [], Q => by simp [countPre]
  | c :: P, Q => by
    simp only [List.cons_append, countSub, countPre, List.append_eq,
      countSub_append pat P Q]
    omega

theorem countSub_cons_false {pat : List Char} {c : Char} {cs : List Char}
    (h : isPre pat (c :: cs) = false) :
    countSub pat (c :: cs) = countSub pat cs := by
  simp [countSub, h]

theorem countPre_cons_false {pat : List Char} {c : Char} {P Q : List Char}
    (h : isPre pat (c :: (P ++ Q)) = false) :
    countPre pat (c :: P) Q = countPre pat P Q := by
  simp [countPre, h]

theorem marker_get?_lt {mF : List Char} {k : Nat} (hk : k < mF.length) :
    (mF ++ ['}']).get? k = mF.get? k :=
  List.get?_append hk

theorem marker_get?_last (mF : List Char) :
    (mF ++ ['}']).get? mF.length = some '}' := by
  rw [List.get?_append_right (le_refl _), Nat.sub_self]
  rfl

theorem marker_get?_zero {mF : List Char} (h : MarkerOk mF) :
    (mF ++ ['}']).get? 0 = some '\\' := by
  rw [marker_get?_lt (lt_length_of_get?_some h.head0)]
  exact h.head0

theorem isPre_marker_false_of_head {mF : List Char} (h : MarkerOk mF)
    {b : Char} {cs : List Char} (hb : b ≠ '\\') :
    isPre (mF ++ ['}']) (b :: cs) = false :=
  isPre_false_of_get? (marker_get?_zero h) (by rfl) (fun hc => hb (by simpa using hc.symm))

theorem isPre_marker_false_of_second {mF : List Char} (h : MarkerOk mF)
    {b : Char} {cs : List Char} :
    isPre (mF ++ ['}']) (b :: 'i' :: cs) = false := by
  obtain ⟨c1, hc1, hne⟩ := h.head1
  exact isPre_false_of_get?
    (by rw [marker_get?_lt (lt_length_of_get?_some hc1)]; exact hc1)
    (by rfl) hne

theorem countPre_lit {mF : List Char} (h : MarkerOk mF) (Q : List Char) :
    countPre (mF ++ ['}']) igLit Q = 0 := by
  show countPre (mF ++ ['}'])
    ('\\' :: 'i' :: 'n' :: 'c' :: 'l' :: 'u' :: 'd' :: 'e' :: 'g' :: 'r' ::
      'a' :: 'p' :: 'h' :: 'i' :: 'c' :: 's' :: '[' :: []) Q = 0
  rw [countPre_cons_false (isPre_marker_false_of_second h)]
  iterate 16 rw [countPre_cons_false (isPre_marker_false_of_head h (by decide))]
  rfl

theorem countPre_size {mF : List Char} (h : MarkerOk mF) :
    ∀ {size : List Char}, ']' ∉ size → ∀ (Q : List Char),
      countPre (mF ++ ['}']) size (']' :: Q) = countSub (mF ++ ['}']) size
  | [], _, Q => by simp [countPre, countSub]
  | a :: P, hsz, Q => by
    have hP : ']' ∉ P := fun hm => hsz (List.mem_cons_of_mem _ hm)
    have hflag : isPre (mF ++ ['}']) (a :: (P ++ ']' :: Q)) =
        isPre (mF ++ ['}']) (a :: P) := by
      by_cases hlen : (mF ++ ['}']).length ≤ (a :: P).length
      · apply bool_eq_of_iff
        rw [isPre_iff_take, isPre_iff_take,
          show (a :: (P ++ ']' :: Q)) = (a :: P) ++ ']' :: Q from rfl,
          List.take_append_of_le_length hlen]
      · push_neg at hlen
        have hlen' : P.length + 1 < mF.length + 1 := by
          simpa using hlen
        have h1 : isPre (mF ++ ['}']) (a :: P) = false := by
          by_contra hcon
          rw [Bool.not_eq_false, isPre_iff_take] at hcon
          have h2 := congrArg List.length hcon
          simp only [List.length_take, List.length_append, List.length_cons,
            List.length_nil] at h2
          omega
        have h2 : isPre (mF ++ ['}']) (a :: (P ++ ']' :: Q)) = false := by
          by_contra hcon
          rw [Bool.not_eq_false] at hcon
          have hm : ']' ∈ mF ++ ['}'] := by
            refine mem_of_isPre_window hcon hlen ?_
            rw [show (a :: (P ++ ']' :: Q)) = (a :: P) ++ ']' :: Q from rfl,
              List.get?_append_right (le_refl _), Nat.sub_self]
            rfl
          rcases List.mem_append.1 hm with hm | hm
          · exact h.nrb hm
          · simp at hm
        rw [h1, h2]
    simp only [countPre, countSub, hflag, countPre_size h hP Q]

theorem endFlagNat_zero_of_short {mF c : List Char}
    (h : c.length < mF.length) : endFlagNat mF c = 0 := by
  have : hasSuf mF c = false := by
    apply decide_eq_false
    rintro ⟨hl, -⟩
    omega
  simp [endFlagNat, this]

theorem hasSuf_cons_of_le {mF : List Char} {a : Char} {c : List Char}
    (h : mF.length ≤ c.length) : hasSuf mF (a :: c) = hasSuf mF c := by
  unfold hasSuf
  apply bool_eq_of_iff
  simp only [decide_eq_true_eq, List.length_cons]
  rw [show c.length + 1 - mF.length = (c.length - mF.length) + 1 from by omega,
    List.drop_succ_cons]
  constructor
  · rintro ⟨-, h2⟩; exact ⟨h, h2⟩
  · rintro ⟨-, h2⟩; exact ⟨by omega, h2⟩

theorem countPre_content {mF : List Char} (h : MarkerOk mF) :
    ∀ {c : List Char}, '}' ∉ c → ∀ (t : List Char),
      countPre (mF ++ ['}']) c ('}' :: t) = endFlagNat mF c
  | [], _, t => by
    have : hasSuf mF [] = false ∨ mF = [] := by
      cases mF with
      | nil => exact Or.inr rfl
      | cons x xs =>
        left
        apply decide_eq_false
        rintro ⟨hl, -⟩
        simp at hl
    rcases this with h0 | h0
    · simp [countPre, endFlagNat, h0]
    · exact absurd (h0 ▸ h.head0) (by simp)
  | a :: c', hc, t => by
    have hc' : '}' ∉ c' := fun hm => hc (List.mem_cons_of_mem _ hm)
    rcases Nat.lt_trichotomy (a :: c').length mF.length with hlt | heq | hgt
    · -- window would cover the closing brace at an `mF` position
      have hflag : isPre (mF ++ ['}']) ((a :: c') ++ '}' :: t) = false := by
        by_contra hcon
        rw [Bool.not_eq_false] at hcon
        have hwin := isPre_get? _ _ hcon (a :: c').length
          (by
            simp only [List.length_append, List.length_cons, List.length_nil]
              at hlt ⊢
            omega)
        rw [List.get?_append_right (le_refl _), Nat.sub_self,
          marker_get?_lt hlt] at hwin
        exact h.nbrace (mem_of_get?_some (show mF.get? (a :: c').length = some '}' from hwin.symm ▸ rfl))
      rw [show countPre (mF ++ ['}']) (a :: c') ('}' :: t) =
        (if isPre (mF ++ ['}']) ((a :: c') ++ '}' :: t) then 1 else 0) +
          countPre (mF ++ ['}']) c' ('}' :: t) from rfl]
      rw [hflag, countPre_content h hc' t, if_neg (by simp),
        endFlagNat_zero_of_short
          (show c'.length < mF.length by
            simp only [List.length_cons] at hlt; omega),
        endFlagNat_zero_of_short hlt]
    · -- the window ending exactly at the closing brace
      have htake : ((a :: c') ++ '}' :: t).take (mF ++ ['}']).length =
          (a :: c') ++ ['}'] := by
        have hlen2 : (mF ++ ['}']).length = (a :: c').length + 1 := by
          simp [heq]
        rw [hlen2, List.take_append_eq_append_take, List.take_all_of_le (by omega)]
        congr 1
        rw [show (a :: c').length + 1 - (a :: c').length = 1 from by omega]
        rfl
      have hflag : isPre (mF ++ ['}']) ((a :: c') ++ '}' :: t) =
          hasSuf mF (a :: c') := by
        apply bool_eq_of_iff
        rw [isPre_iff_take, htake]
        unfold hasSuf
        simp only [decide_eq_true_eq]
        constructor
        · intro hx
          have hx2 := (List.append_left_inj _).1 hx
          exact ⟨by omega, by simp [hx2, Nat.sub_eq_zero_of_le (le_of_eq heq)]⟩
        · rintro ⟨-, hx⟩
          rw [Nat.sub_eq_zero_of_le (le_of_eq heq), List.drop_zero] at hx
          rw [hx]
      rw [show countPre (mF ++ ['}']) (a :: c') ('}' :: t) =
        (if isPre (mF ++ ['}']) ((a :: c') ++ '}' :: t) then 1 else 0) +
          countPre (mF ++ ['}']) c' ('}' :: t) from rfl]
      rw [hflag, countPre_content h hc' t,
        endFlagNat_zero_of_short (by simp only [List.length_cons] at heq; omega)]
      unfold endFlagNat
      omega
    · -- window fully inside the content: impossible, no `}` there
      have hflag : isPre (mF ++ ['}']) ((a :: c') ++ '}' :: t) = false := by
        by_contra hcon
        rw [Bool.not_eq_false] at hcon
        have hwin := isPre_get? _ _ hcon mF.length (by simp)
        rw [marker_get?_last, List.get?_append (by omega)] at hwin
        exact hc (mem_of_get?_some hwin)
      rw [show countPre (mF ++ ['}']) (a :: c') ('}' :: t) =
        (if isPre (mF ++ ['}']) ((a :: c') ++ '}' :: t) then 1 else 0) +
          countPre (mF ++ ['}']) c' ('}' :: t) from rfl]
      rw [hflag, countPre_content h hc' t, if_neg (by simp)]
      unfold endFlagNat
      rw [hasSuf_cons_of_le (by simp only [List.length_cons] at hgt; omega)]
      omega

theorem countSub_mkIG {mF : List Char} (h : MarkerOk mF) {size c : List Char}
    (hsz : ']' ∉ size) (hc : '}' ∉ c) (t : List Char) :
    countSub (mF ++ ['}']) (mkIG size c t) =
      countSub (mF ++ ['}']) size + endFlagNat mF c +
        countSub (mF ++ ['}']) t := by
  unfold mkIG
  rw [List.append_assoc, countSub_append, countPre_lit h,
    countSub_append, countPre_size h hsz,
    countSub_cons_false (isPre_marker_false_of_head h (by decide)),
    countSub_cons_false (isPre_marker_false_of_head h (by decide)),
    countSub_append, countPre_content h hc,
    countSub_cons_false (isPre_marker_false_of_head h (by decide))]
  omega

theorem hasSuf_append_slash {mF : List Char} (h : MarkerOk mF) {w : List Char}
    (hw : w.getLast? = some '/') (r : List Char) :
    hasSuf mF (w ++ r) = hasSuf mF r := by
  have hwne : w.length ≠ 0 := by
    intro h0
    rw [List.length_eq_zero.1 h0] at hw
    simp at hw
  have hwget : w.get? (w.length - 1) = some '/' := by
    rw [← List.getLast?_eq_get?]; exact hw
  by_cases hlen : mF.length ≤ r.length
  · unfold hasSuf
    apply bool_eq_of_iff
    simp only [decide_eq_true_eq, List.length_append]
    rw [List.drop_append_eq_append_drop, List.drop_eq_nil_of_le (by omega),
      show w.length + r.length - mF.length - w.length =
        r.length - mF.length from by omega]
    simp only [List.nil_append]
    constructor
    · rintro ⟨-, h2⟩; exact ⟨hlen, h2⟩
    · rintro ⟨-, h2⟩; exact ⟨by omega, h2⟩
  · push_neg at hlen
    have hr : hasSuf mF r = false := by
      apply decide_eq_false; rintro ⟨hl, -⟩; omega
    rw [hr]
    unfold hasSuf
    apply decide_eq_false
    rintro ⟨hl, hdrop⟩
    simp only [List.length_append] at hl
    have hdrop' :
        List.drop (w.length + r.length - mF.length) (w ++ r) = mF := by
      simpa [List.length_append] using hdrop
    have hget : (List.drop (w.length + r.length - mF.length) (w ++ r)).get?
        ((w.length - 1) - (w.length + r.length - mF.length)) = some '/' := by
      rw [List.get?_drop,
        show (w.length + r.length - mF.length) +
          ((w.length - 1) - (w.length + r.length - mF.length)) =
            w.length - 1 from by omega,
        List.get?_append (by omega)]
      exact hwget
    rw [hdrop'] at hget
    exact h.nslash (mem_of_get?_some hget)

theorem lastSplitPat_some :
    ∀ {pat s a b : List Char}, lastSplitPat pat s = some (a, b) →
      s = a ++ pat ++ b ∧ b ≠ []
  | pat, [], a, b, h => by simp [lastSplitPat] at h
  | pat, c :: cs, a, b, h => by
    unfold lastSplitPat at h
    cases hrec : lastSplitPat pat cs with
    | some p =>
      rw [hrec] at h
      obtain ⟨a', b'⟩ := p
      simp only [Option.some.injEq, Prod.mk.injEq] at h
      obtain ⟨h1, h2⟩ := lastSplitPat_some hrec
      refine ⟨?_, h.2 ▸ h2⟩
      rw [← h.1, ← h.2]
      simp [h1]
    | none =>
      rw [hrec] at h
      cases hd : dropPre pat (c :: cs) with
      | none => rw [hd] at h; simp at h
      | some r =>
        rw [hd] at h
        by_cases hnil : r = []
        · simp [hnil] at h
        · simp only [if_neg hnil, Option.some.injEq, Prod.mk.injEq] at h
          have hdd := dropPre_some hd
          exact ⟨by rw [← h.1, ← h.2]; simpa using hdd, h.2 ▸ hnil⟩

theorem firstSplitPat_some :
    ∀ {pat s a b : List Char}, firstSplitPat pat s = some (a, b) →
      s = a ++ pat ++ b
  | pat, [], a, b, h => by simp [firstSplitPat] at h
  | pat, c :: cs, a, b, h => by
    unfold firstSplitPat at h
    cases hd : dropPre pat (c :: cs) with
    | some r =>
      rw [hd] at h
      simp only [Option.some.injEq, Prod.mk.injEq] at h
      rw [← h.1, ← h.2]
      simpa using dropPre_some hd
    | none =>
      rw [hd] at h
      cases hrec : firstSplitPat pat cs with
      | none => rw [hrec] at h; simp at h
      | some p =>
        rw [hrec] at h
        obtain ⟨a', b'⟩ := p
        simp only [Option.map_some', Option.some.injEq, Prod.mk.injEq] at h
        have h1 := firstSplitPat_some hrec
        rw [← h.1, ← h.2]
        simp [h1]

theorem endFlagNat_imgPre {mF : List Char} (h : MarkerOk mF) (r : List Char) :
    endFlagNat mF (imgPre7 ++ r) = endFlagNat mF r := by
  unfold endFlagNat
  rw [hasSuf_append_slash h (by decide) r]

theorem passDoubleImages_spec {mF : List Char} (h : MarkerOk mF)
    {c c' : List Char} (hp : passDoubleImages c = some c') (hc : '}' ∉ c) :
    '}' ∉ c' ∧ endFlagNat mF c' = endFlagNat mF c := by
  unfold passDoubleImages at hp
  cases hd : dropPre iiPre14 c with
  | none => rw [hd] at hp; simp at hp
  | some r =>
    rw [hd] at hp
    by_cases hr : r = []
    · simp [hr] at hp
    · simp only [if_neg hr, Option.some.injEq] at hp
      have hceq : c = iiPre14 ++ r := dropPre_some hd
      constructor
      · rw [← hp]
        intro hm
        rcases List.mem_append.1 hm with hm | hm
        · exact absurd hm (by decide)
        · exact hc (hceq ▸ List.mem_append.2 (Or.inr hm))
      · rw [← hp, hceq, endFlagNat_imgPre h]
        unfold endFlagNat
        rw [hasSuf_append_slash h (by decide) r]

theorem passSlashImages_spec {mF : List Char} (h : MarkerOk mF)
    {c c' : List Char} (hp : passSlashImages c = some c') (hc : '}' ∉ c) :
    '}' ∉ c' ∧ endFlagNat mF c' = endFlagNat mF c := by
  unfold passSlashImages at hp
  cases hls : lastSplitPat slashImages8 c with
  | none => rw [hls] at hp; simp at hp
  | some p =>
    rw [hls] at hp
    simp only [Option.some.injEq] at hp
    obtain ⟨hceq, -⟩ := lastSplitPat_some hls
    have hceq' : c = (p.1 ++ slashImages8) ++ p.2 := by
      rw [hceq, List.append_assoc]
    constructor
    · rw [← hp]
      intro hm
      rcases List.mem_append.1 hm with hm | hm
      · exact absurd hm (by decide)
      · exact hc (hceq' ▸ List.mem_append.2 (Or.inr hm))
    · rw [← hp, endFlagNat_imgPre h, hceq']
      unfold endFlagNat
      rw [hasSuf_append_slash h (by rw [List.getLast?_append]; rfl) p.2]

theorem passPagePattern_spec {mF : List Char} (h : MarkerOk mF)
    {c c' : List Char} (hp : passPagePattern c = some c') (hc : '}' ∉ c) :
    '}' ∉ c' ∧ endFlagNat mF c' = endFlagNat mF c := by
  unfold passPagePattern at hp
  by_cases hcp : containsPagePat c = true
  · rw [if_pos hcp] at hp
    simp only [Option.some.injEq] at hp
    constructor
    · rw [← hp]
      intro hm
      rcases List.mem_append.1 hm with hm | hm
      · exact absurd hm (by decide)
      · exact hc hm
    · rw [← hp, endFlagNat_imgPre h]
  · rw [if_neg hcp] at hp; simp at hp

theorem passOutputPath_spec {mF : List Char} (h : MarkerOk mF)
    {c c' : List Char} (hp : passOutputPath c = some c') (hc : '}' ∉ c) :
    '}' ∉ c' ∧ endFlagNat mF c' = endFlagNat mF c := by
  unfold passOutputPath at hp
  cases hfs : firstSplitPat outLit7 c with
  | none => rw [hfs] at hp; simp at hp
  | some p =>
    rw [hfs] at hp
    by_cases hcp : containsPagePat p.2 = true
    · simp only [if_pos hcp, Option.some.injEq] at hp
      constructor
      · rw [← hp]
        intro hm
        rcases List.mem_append.1 hm with hm | hm
        · exact absurd hm (by decide)
        · exact hc hm
      · rw [← hp, endFlagNat_imgPre h]
    · simp [hcp] at hp

theorem tryMatchIG_some {s size c rest : List Char}
    (h : tryMatchIG s = some (size, c, rest)) :
    s = mkIG size c rest ∧ ']' ∉ size ∧ '}' ∉ c := by
  unfold tryMatchIG at h
  cases hd : dropPre igLit s with
  | none => rw [hd] at h; simp at h
  | some s1 =>
    rw [hd] at h; simp only [] at h
    cases hsp : splitAtChar ']' s1 with
    | none => rw [hsp] at h; simp at h
    | some p =>
      rw [hsp] at h; simp only [] at h
      obtain ⟨size', s2⟩ := p
      cases hd2 : dropPre ['{'] s2 with
      | none => rw [hd2] at h; simp at h
      | some s3 =>
        rw [hd2] at h; simp only [] at h
        cases hsp2 : splitAtChar '}' s3 with
        | none => rw [hsp2] at h; simp at h
        | some q =>
          rw [hsp2] at h
          obtain ⟨c0, rest0⟩ := q
          simp only [Option.some.injEq, Prod.mk.injEq] at h
          obtain ⟨h1, h2, h3⟩ := h
          subst h1; subst h2; subst h3
          have e1 := dropPre_some hd
          obtain ⟨e2, hn2⟩ := splitAtChar_some hsp
          have e25 := dropPre_some hd2
          obtain ⟨e3, hn3⟩ := splitAtChar_some hsp2
          refine ⟨?_, hn2, hn3⟩
          rw [e1, e2, e25, e3]
          simp [mkIG]

theorem dirStr_append (size c t : List Char) :
    dirStr size c ++ t = mkIG size c t := by
  simp [dirStr, mkIG]

theorem tryPass_spec {mF : List Char} (hm : MarkerOk mF)
    {f : List Char → Option (List Char)}
    (hf : ∀ c c', f c = some c' → '}' ∉ c →
      ('}' ∉ c' ∧ endFlagNat mF c' = endFlagNat mF c)) :
    TrySpecP (mF ++ ['}']) (tryPass f) := by
  intro s out rest h
  unfold tryPass at h
  cases hmt : tryMatchIG s with
  | none => rw [hmt] at h; simp at h
  | some trip =>
    rw [hmt] at h
    obtain ⟨size, c, rest0⟩ := trip
    simp only [] at h
    cases hfc : f c with
    | none => rw [hfc] at h; simp at h
    | some c' =>
      rw [hfc] at h
      simp only [Option.some.injEq, Prod.mk.injEq] at h
      obtain ⟨hout, hrest⟩ := h
      subst hout; subst hrest
      obtain ⟨hs, hsz, hcb⟩ := tryMatchIG_some hmt
      obtain ⟨hcb', hflag⟩ := hf c c' hfc hcb
      refine ⟨dirStr size c, ?_, ?_, ?_, ?_, ?_⟩
      · rw [hs, dirStr_append]
      · simp [dirStr, igLit]
      · simp only [dirStr, igLit, List.length_append, List.length_cons]
        omega
      · rw [hs]
        unfold mkIG dirStr
        rw [show (17 : Nat) = igLit.length from rfl, List.append_assoc,
          List.append_assoc, List.take_left, List.take_left]
      · intro t
        rw [dirStr_append, dirStr_append, countSub_mkIG hm hsz hcb' t,
          countSub_mkIG hm hsz hcb t, hflag]

theorem scanRw_take {m : List Char}
    {try_ : List Char → Option (List Char × List Char)}
    (hs : TrySpecP m try_) :
    ∀ (fuel : Nat) (s : List Char) {n : Nat}, n ≤ 17 →
      (scanRw try_ fuel s).take n = s.take n := by
  intro fuel
  induction fuel with
  | zero => intro s n _; cases s <;> rfl
  | succ fuel ih =>
    intro s n hn
    cases s with
    | nil => rfl
    | cons c cs =>
      cases htry : try_ (c :: cs) with
      | none =>
        simp only [scanRw, htry]
        cases n with
        | zero => rfl
        | succ n =>
          simp only [List.take_succ_cons]
          rw [ih cs (by omega)]
      | some p =>
        obtain ⟨out, rest⟩ := p
        obtain ⟨chop, hchop, -, hlen, htake, -⟩ := hs _ _ _ htry
        simp only [scanRw, htry]
        rw [List.take_append_of_le_length (le_trans hn hlen),
          take_agree_mono htake hn]

theorem countSub_front_agree {m : List Char} :
    ∀ (u : List Char) {v v' : List Char}, countSub m v = countSub m v' →
      v.take (m.length - 1) = v'.take (m.length - 1) →
      countSub m (u ++ v) = countSub m (u ++ v')
  | [], v, v', hcount, _ => hcount
  | c :: u, v, v', hcount, htake => by
    have htail := countSub_front_agree u hcount htake
    have hflag : isPre m (c :: (u ++ v)) = isPre m (c :: (u ++ v')) := by
      cases m with
      | nil => rfl
      | cons mh mt =>
        apply bool_eq_of_iff
        rw [isPre_iff_take, isPre_iff_take]
        have htk : (u ++ v).take mt.length = (u ++ v').take mt.length := by
          rw [List.take_append_eq_append_take, List.take_append_eq_append_take,
            take_agree_mono htake
              (show mt.length - u.length ≤ (mh :: mt).length - 1 from by
                simp only [List.length_cons]; omega)]
        simp only [List.length_cons, List.take_succ_cons, List.cons_append]
        rw [htk]
    simp only [List.cons_append, countSub, List.append_eq, hflag, htail]

theorem scanRw_countSub {m : List Char}
    {try_ : List Char → Option (List Char × List Char)}
    (hlen18 : m.length ≤ 18) (hs : TrySpecP m try_) :
    ∀ (fuel : Nat) (s : List Char), s.length ≤ fuel →
      countSub m (scanRw try_ fuel s) = countSub m s := by
  intro fuel
  induction fuel with
  | zero =>
    intro s hsl
    rw [List.length_eq_zero.1 (Nat.le_zero.1 hsl)]
    rfl
  | succ fuel ih =>
    intro s hsl
    cases s with
    | nil => rfl
    | cons c cs =>
      cases htry : try_ (c :: cs) with
      | none =>
        simp only [scanRw, htry]
        have hcs : cs.length ≤ fuel := by
          simp only [List.length_cons] at hsl; omega
        have htail := ih cs hcs
        have hflag : isPre m (c :: scanRw try_ fuel cs) = isPre m (c :: cs) := by
          cases m with
          | nil => rfl
          | cons mh mt =>
            apply bool_eq_of_iff
            rw [isPre_iff_take, isPre_iff_take]
            simp only [List.length_cons, List.take_succ_cons]
            rw [scanRw_take hs fuel cs
              (show mt.length ≤ 17 from by
                simp only [List.length_cons] at hlen18; omega)]
        simp only [countSub, hflag, htail]
      | some p =>
        obtain ⟨out, rest⟩ := p
        obtain ⟨chop, hchop, hne, -, -, hcount⟩ := hs _ _ _ htry
        simp only [scanRw, htry]
        have hrest : rest.length ≤ fuel := by
          have hlc := congrArg List.length hchop
          simp only [List.length_cons, List.length_append] at hlc
          have : 1 ≤ chop.length := List.length_pos.2 hne
          simp only [List.length_cons] at hsl
          omega
        calc countSub m (out ++ scanRw try_ fuel rest)
            = countSub m (out ++ rest) :=
              countSub_front_agree out (ih rest hrest)
                (scanRw_take hs fuel rest (by omega))
          _ = countSub m (chop ++ rest) := hcount rest
          _ = countSub m (c :: cs) := by rw [← hchop]

theorem markerOk_begin : MarkerOk beginFrameFront := by
  refine ⟨by decide, by decide, by decide, by decide, by decide,
    ⟨'b', by decide, by decide⟩, by decide⟩

theorem markerOk_end : MarkerOk endFrameFront := by
  refine ⟨by decide, by decide, by decide, by decide, by decide,
    ⟨'e', by decide, by decide⟩, by decide⟩

theorem subIG_countSub {mF : List Char} (hm : MarkerOk mF)
    {f : List Char → Option (List Char)}
    (hf : ∀ c c', f c = some c' → '}' ∉ c →
      ('}' ∉ c' ∧ endFlagNat mF c' = endFlagNat mF c)) (s : List Char) :
    countSub (mF ++ ['}']) (subIG f s) = countSub (mF ++ ['}']) s :=
  scanRw_countSub
    (by simp only [List.length_append, List.length_cons, List.length_nil]
        have := hm.len18; omega)
    (tryPass_spec hm hf) s.length s (le_refl _)

theorem fix_image_paths_countSub {mF : List Char} (hm : MarkerOk mF)
    (s : List Char) :
    countSub (mF ++ ['}']) (fix_image_paths s) = countSub (mF ++ ['}']) s := by
  unfold fix_image_paths
  rw [subIG_countSub hm (fun c c' hp hc => passOutputPath_spec hm hp hc),
    subIG_countSub hm (fun c c' hp hc => passPagePattern_spec hm hp hc),
    subIG_countSub hm (fun c c' hp hc => passSlashImages_spec hm hp hc),
    subIG_countSub hm (fun c c' hp hc => passDoubleImages_spec hm hp hc)]

theorem beginFrameMarker_eq : beginFrameMarker = beginFrameFront ++ ['}'] := by
  decide

theorem endFrameMarker_eq : endFrameMarker = endFrameFront ++ ['}'] := by
  decide

/-! ### Inversion of the repair engine -/

theorem fix_latex_structure_pass_ok {s t : List Char}
    (h : fix_latex_structure_pass s = Except.ok t) :
    countSub beginFrameMarker t = countSub endFrameMarker t := by
  unfold fix_latex_structure_pass at h
  simp only [] at h
  split at h
  · rename_i hcond
    simp only [Except.ok.injEq] at h
    subst h
    exact hcond
  · exact absurd h (by simp)

theorem fix_brace_matching_ok {s t : List Char}
    (h : fix_brace_matching s = Except.ok t) :
    t = s ∧ s.count '{' = s.count '}' := by
  unfold fix_brace_matching at h
  split at h
  · rename_i hcond
    simp only [Except.ok.injEq] at h
    exact ⟨h.symm, hcond⟩
  · exact absurd h (by simp)

theorem clean_ok_struct {s out : List Char}
    (h : clean_latex_response s = Except.ok out) :
    out = [] ∨ ∃ s9,
      countSub beginFrameMarker s9 = countSub endFrameMarker s9 ∧
      out = fix_image_paths s9 ∧ out.count '{' = out.count '}' := by
  unfold clean_latex_response at h
  split at h
  · left
    simpa using h.symm
  · right
    simp only [] at h
    split at h
    · exact absurd h (by simp)
    · rename_i s9 hfl
      split at h
      · exact absurd h (by simp)
      · rename_i s10 hfb
        simp only [Except.ok.injEq] at h
        subst h
        obtain ⟨hout, hbrace⟩ := fix_brace_matching_ok hfb
        subst hout
        exact ⟨s9, fix_latex_structure_pass_ok hfl, rfl, hbrace⟩

/-! ### Evaluation lemmas for single-directive bodies -/

theorem tryMatchIG_mkIG {size c rest : List Char}
    (hsz : ']' ∉ size) (hc : '}' ∉ c) :
    tryMatchIG (mkIG size c rest) = some (size, c, rest) := by
  unfold tryMatchIG mkIG
  rw [List.append_assoc, dropPre_append]
  simp only []
  rw [splitAtChar_append hsz]
  simp only []
  rw [show ('{' :: (c ++ '}' :: rest)) = ['{'] ++ (c ++ '}' :: rest) from rfl,
    dropPre_append]
  simp only []
  rw [splitAtChar_append hc]

theorem dirStr_eq_mkIG (size c : List Char) :
    dirStr size c = mkIG size c [] := rfl

theorem findAllIGAux_nil (fuel : Nat) : findAllIGAux fuel [] = [] := by
  cases fuel <;> rfl

theorem scanRw_nil {try_ : List Char → Option (List Char × List Char)}
    (fuel : Nat) : scanRw try_ fuel [] = [] := by
  cases fuel <;> rfl

theorem tryMatchIG_ne_nil {s : List Char} {v : List Char × List Char × List Char}
    (h : tryMatchIG s = some v) : s ≠ [] := by
  intro hnil
  subst hnil
  simp [tryMatchIG, dropPre, igLit] at h

theorem findAllIGAux_eval {s size c rest : List Char} {fuel : Nat}
    (hs : tryMatchIG s = some (size, c, rest)) (hne : c ≠ [])
    (hfuel : 1 ≤ fuel) :
    findAllIGAux fuel s = (size, c) :: findAllIGAux (fuel - 1) rest := by
  cases s with
  | nil => exact absurd rfl (tryMatchIG_ne_nil hs)
  | cons a as =>
    cases fuel with
    | zero => omega
    | succ fuel =>
      simp only [findAllIGAux, hs]
      rw [if_neg hne]
      rfl

theorem scanRw_eval {try_ : List Char → Option (List Char × List Char)}
    {s out rest : List Char} {fuel : Nat}
    (h : try_ s = some (out, rest)) (hne : s ≠ []) (hfuel : 1 ≤ fuel) :
    scanRw try_ fuel s = out ++ scanRw try_ (fuel - 1) rest := by
  cases s with
  | nil => exact absurd rfl hne
  | cons a as =>
    cases fuel with
    | zero => omega
    | succ fuel =>
      simp only [scanRw, h]
      rfl

theorem basename_suffix : ∀ (p : List Char), ∃ u, p = u ++ basename p
  | [] => ⟨[], rfl⟩
  | c :: cs => by
    unfold basename
    by_cases h : '/' ∈ (c :: cs)
    · rw [if_pos h]
      obtain ⟨u, hu⟩ := basename_suffix cs
      exact ⟨c :: u, by rw [List.cons_append, ← hu]⟩
    · rw [if_neg h]
      exact ⟨[], rfl⟩

theorem containsSub_of_suffix {pat s : List Char} (h : ∃ u, s = u ++ pat) :
    containsSub pat s = true := by
  obtain ⟨u, rfl⟩ := h
  rw [containsSub_iff]
  exact ⟨u.length, by rw [List.drop_left]; exact isPre_refl pat⟩

theorem findAllIG_dirStr {size path : List Char}
    (hsz : ']' ∉ size) (hp : '}' ∉ path) (hne : path ≠ []) :
    findAllIG (dirStr size path) = [(size, path)] := by
  unfold findAllIG
  have h1 : tryMatchIG (dirStr size path) = some (size, path, []) := by
    rw [dirStr_eq_mkIG]
    exact tryMatchIG_mkIG hsz hp
  have hlen : 1 ≤ (dirStr size path).length := by
    rcases hx : dirStr size path with _ | ⟨a, as⟩
    · exact absurd hx ((dirStr_eq_mkIG size path ▸ tryMatchIG_ne_nil h1))
    · simp
  rw [findAllIGAux_eval h1 hne hlen, findAllIGAux_nil]

theorem subRemoveIG_dirStr {size path fname : List Char}
    (hsz : ']' ∉ size) (hp : '}' ∉ path)
    (hcont : containsSub fname path = true) :
    subRemoveIG fname (dirStr size path) = [] := by
  unfold subRemoveIG rw1
  have h1 : tryRemoveIG fname (dirStr size path) = some ([], []) := by
    unfold tryRemoveIG
    rw [dirStr_eq_mkIG, tryMatchIG_mkIG hsz hp]
    simp only []
    rw [if_pos hcont]
  have hlen : 1 ≤ (dirStr size path).length := by
    have h2 : tryMatchIG (dirStr size path) = some (size, path, []) := by
      rw [dirStr_eq_mkIG]; exact tryMatchIG_mkIG hsz hp
    rcases hx : dirStr size path with _ | ⟨a, as⟩
    · exact absurd hx (tryMatchIG_ne_nil h2)
    · simp
  rw [scanRw_eval h1 (by
      intro hx
      rw [hx] at hlen
      simp at hlen) hlen,
    scanRw_nil, List.nil_append]

/-! ### The deduplication loop and its declarative description -/

theorem remove_duplicate_images_loop_eq :
    ∀ (ls : List (List Char)) (seen : List (List Char)),
      remove_duplicate_images_loop seen ls =
        dedupLinesSpec (ls.filter (fun l =>
          match igLineKey l with
          | some k => decide (k ∉ seen)
          | none => true))
  | [], seen => by simp [remove_duplicate_images_loop, dedupLinesSpec]
  | l :: ls, seen => by
    cases hk : igLineKey l with
    | none =>
      simp only [remove_duplicate_images_loop, hk, List.filter_cons, if_true]
      simp only [dedupLinesSpec, hk]
      exact congrArg (l :: ·) (remove_duplicate_images_loop_eq ls seen)
    | some k =>
      by_cases hmem : k ∈ seen
      · simp only [remove_duplicate_images_loop, hk, if_pos hmem,
          List.filter_cons]
        rw [if_neg (by simp [hmem])]
        exact remove_duplicate_images_loop_eq ls seen
      · simp only [remove_duplicate_images_loop, hk, if_neg hmem,
          List.filter_cons]
        rw [if_pos (by simp [hmem])]
        simp only [dedupLinesSpec, hk]
        refine congrArg (l :: ·) ?_
        rw [remove_duplicate_images_loop_eq ls (k :: seen),
          List.filter_filter]
        congr 1
        apply List.filter_congr
        intro x _
        cases hkx : igLineKey x with
        | none => simp [hkx]
        | some kx =>
          simp only [hkx, List.mem_cons, decide_not]
          by_cases hx1 : kx = k
          · subst hx1; simp
          · by_cases hx2 : kx ∈ seen <;>
              simp [hx1, hx2, Option.some.injEq]
termination_by ls _ => ls.length
decreasing_by
  all_goals simp only [List.length_cons]; omega

/-! ### Claim theorems -/

/-- C1 (amended): for every classification response in which the brace-span
extraction succeeds (`find('{')` hits and `rfind('}') + 1` lies beyond it),
if `json.loads` fails on the extracted span and again on the repaired span,
the planner returns the empty plan rather than raising.  (As stated over
every response string the claim is false: without such a span the planner
raises — see the counterexample.) -/
theorem c1_amended_empty_plan {J : Type} (loads : List Char → Option J)
    (emptyPlan : J) (resp js : List Char)
    (hx : extract_json_str resp = some js)
    (h1 : loads js = none)
    (h2 : loads (fix_json_common_issues js) = none) :
    parse_image_analysis_response loads emptyPlan resp =
      Except.ok emptyPlan := by
  unfold parse_image_analysis_response
  rw [hx]
  simp only []
  rw [h1]
  simp only []
  rw [h2]

/-- Witness for C1: a malformed-but-braced response yields the empty plan. -/
theorem c1_witness :
    parse_image_analysis_response (J := Unit) (fun _ => none) ()
      "\x7bx\x7d".toList = Except.ok () :=
  c1_amended_empty_plan (fun _ => none) () _ _ rfl rfl rfl

/-- Counterexample for C1 as stated: a truncated classification response with
no closing brace at all (`{"image_decisions": {` cut before any `}`) makes
the planner raise `ValueError`, not return the empty plan — whatever
`json.loads` would do. -/
theorem c1_counterexample :
    parse_image_analysis_response (J := Unit) (fun _ => none) ()
      "\x7b\x22image_decisions\x22: \x7b".toList =
      Except.error "No valid JSON found in image analysis response" ∧
    parse_image_analysis_response (J := Unit) (fun _ => some ()) ()
      "\x7b\x22image_decisions\x22: \x7b".toList =
      Except.error "No valid JSON found in image analysis response" :=
  ⟨rfl, rfl⟩

/-- C2 (amended): `clean_latex_response` either raises at one of its two
checkpoints or returns a body with equal numbers of `\begin{frame}` and
`\end{frame}` markers — the balance established at the frame checkpoint is
preserved by the later image-path pass.  (For the full engine the claim is
false: the later frame-scope filtering can drop a close marker without
raising — see the counterexample.) -/
theorem c2_amended_clean_frame_balance (s out : List Char)
    (h : clean_latex_response s = Except.ok out) :
    countSub beginFrameMarker out = countSub endFrameMarker out := by
  rcases clean_ok_struct h with rfl | ⟨s9, hbal, rfl, -⟩
  · rfl
  · rw [beginFrameMarker_eq, endFrameMarker_eq,
      fix_image_paths_countSub markerOk_begin,
      fix_image_paths_countSub markerOk_end,
      ← beginFrameMarker_eq, ← endFrameMarker_eq]
    exact hbal

/-- Witness for C2. -/
theorem c2_witness :
    clean_latex_response "ab".toList = Except.ok "ab".toList ∧
    countSub beginFrameMarker "ab".toList =
      countSub endFrameMarker "ab".toList :=
  ⟨rfl, c2_amended_clean_frame_balance "ab".toList "ab".toList rfl⟩

/-- Counterexample for C2 as stated: fed a balanced body whose `\end{frame}`
shares a line with `\centering`, the full engine returns (no raise) a body
with one `\begin{frame}` and zero `\end{frame}` markers, because the
frame-scope filter drops that line after the balance checkpoint. -/
theorem c2_counterexample :
    finalize_latex []
      "\\begin{frame}{t}\nx\n\\end{frame} \\centering".toList =
      Except.ok "\\begin{frame}{t}\nx".toList ∧
    countSub beginFrameMarker "\\begin{frame}{t}\nx".toList = 1 ∧
    countSub endFrameMarker "\\begin{frame}{t}\nx".toList = 0 :=
  ⟨rfl, rfl, rfl⟩

/-- C3: in `_fix_image_paths`, a doubled `images/images/` prefix is collapsed
for ordinary filenames (first conjunct), but for filenames matching the
extraction pattern `page_<n>_img_<m>.png` the third pass re-prefixes
`images/` onto the already-normalised path, so the doubled prefix is back in
the returned body (second and third conjuncts) — contradicting both the spec
and the pass's own `Handle images without images/ prefix` comment. -/
theorem c3_code_bug_page_double_prefix :
    fix_image_paths
        "\\includegraphics[width]{images/images/x.png}".toList =
      "\\includegraphics[width]{images/x.png}".toList ∧
    fix_image_paths
        "\\includegraphics[width]{images/images/page_1_img_2.png}".toList =
      "\\includegraphics[width]{images/images/page_1_img_2.png}".toList ∧
    containsSub "images/images/".toList
      (fix_image_paths
        "\\includegraphics[width]{images/images/page_1_img_2.png}".toList) =
      true :=
  ⟨rfl, rfl, rfl⟩

/-- C4 (amended): `remove_duplicate_images` equals the declarative
first-occurrence filter `dedupLinesSpec` keyed on the path-stripped filename
of each line's first image-inclusion directive: the first line with a given
key is kept and every later line with the same key is dropped.  (As stated
over every reference the claim is false: a duplicate referenced only by a
line's second directive is kept — see the counterexample.) -/
theorem c4_amended_first_line_dedup (body : List Char) :
    remove_duplicate_images body =
      joinLines (dedupLinesSpec (splitLines body)) := by
  unfold remove_duplicate_images
  congr 1
  rw [remove_duplicate_images_loop_eq]
  congr 1
  apply List.filter_eq_self.2
  intro x _
  cases hkx : igLineKey x <;> simp [hkx]

/-- Counterexample for C4 as stated: the second line references `b.png`,
already referenced by the first line's second directive, yet the pass keeps
both lines, so the output still references `b.png` twice. -/
theorem c4_counterexample :
    remove_duplicate_images
      ("\\includegraphics[w]{a.png} \\includegraphics[w]{b.png}\n" ++
        "\\includegraphics[w]{b.png}").toList =
      ("\\includegraphics[w]{a.png} \\includegraphics[w]{b.png}\n" ++
        "\\includegraphics[w]{b.png}").toList ∧
    countSub "{b.png}".toList
      (remove_duplicate_images
        ("\\includegraphics[w]{a.png} \\includegraphics[w]{b.png}\n" ++
          "\\includegraphics[w]{b.png}").toList) = 2 :=
  ⟨rfl, rfl⟩

/-- C5 (amended): `clean_latex_response` either raises or returns a body
with equal `{` and `}` counts — the brace checkpoint is the last step of
`clean`.  (For the full engine the claim is false: the later frame-scope
filtering can drop a brace-carrying `\centering` line without rechecking —
see the counterexample.) -/
theorem c5_amended_clean_brace_balance (s out : List Char)
    (h : clean_latex_response s = Except.ok out) :
    out.count '{' = out.count '}' := by
  rcases clean_ok_struct h with rfl | ⟨s9, -, -, hb⟩
  · rfl
  · exact hb

/-- Witness for C5. -/
theorem c5_witness :
    clean_latex_response "ab".toList = Except.ok "ab".toList ∧
    ("ab".toList).count '{' = ("ab".toList).count '}' :=
  ⟨rfl, c5_amended_clean_brace_balance "ab".toList "ab".toList rfl⟩

/-- Counterexample for C5 as stated: a brace-balanced body whose second line
is `\centering}` passes both checkpoints, then the frame-scope filter drops
that line, and the engine returns `{` — one `{`, zero `}` — without
raising. -/
theorem c5_counterexample :
    finalize_latex [] "\x7b\n\\centering\x7d".toList =
      Except.ok "\x7b".toList ∧
    ("\x7b".toList).count '{' = 1 ∧ ("\x7b".toList).count '}' = 0 :=
  ⟨rfl, rfl, rfl⟩

/-- C6: the structured (list-of-page-records) branch of the Structure
Extractor prepends the `Contents` frame (third conjunct), but the
unstructured text-blob fallback returns `convert_markdown_to_latex` directly
and its output starts with `\begin{frame}{Slide 1}` — no `Contents` frame,
no table-of-contents directive (first two conjuncts) — although the header
lines are built unconditionally before the branch. -/
theorem c6_code_bug_string_fallback :
    create_basic_latex_structure (MarkdownInput.str "hello".toList) =
      "\\begin{frame}{Slide 1}\nhello\n\\end{frame}".toList ∧
    isPre "\\begin{frame}{Contents}".toList
      (create_basic_latex_structure (MarkdownInput.str "hello".toList)) =
      false ∧
    isPre
      ("\\begin{frame}{Contents}\n    \\tableofcontents\n\\end{frame}\n").toList
      (create_basic_latex_structure
        (MarkdownInput.pages [PageItem.page "hello".toList []])) = true :=
  ⟨rfl, rfl, rfl⟩

/-- C7: image-path normalisation is not a fixpoint.  On a body whose
directive references `page_1_img_2.png` without a prefix, one application
yields the `images/` prefix, but a second application re-prefixes `images/`
again (the third pass of `_fix_image_paths` also matches contents that
already carry the prefix), so applying the pass twice differs from applying
it once. -/
theorem c7_code_bug_not_idempotent :
    fix_image_paths "\\includegraphics[w]{page_1_img_2.png}".toList =
      "\\includegraphics[w]{images/page_1_img_2.png}".toList ∧
    fix_image_paths (fix_image_paths
        "\\includegraphics[w]{page_1_img_2.png}".toList) =
      "\\includegraphics[w]{images/images/page_1_img_2.png}".toList ∧
    fix_image_paths (fix_image_paths
        "\\includegraphics[w]{page_1_img_2.png}".toList) ≠
      fix_image_paths "\\includegraphics[w]{page_1_img_2.png}".toList :=
  ⟨rfl, rfl, by decide⟩

/-- C8 (amended): on a body consisting of a single well-formed directive,
dangling-reference removal deletes the directive exactly when its
path-stripped filename is not among the available filenames, and returns the
body unchanged otherwise.  (The claim's `unchanged otherwise` is false in
general: the removal regex matches any directive whose argument merely
contains a missing filename as a substring — see the counterexample.) -/
theorem c8_amended_single_directive (size path : List Char)
    (avail : List (List Char)) (hsz : ']' ∉ size) (hp : '}' ∉ path)
    (hne : path ≠ []) :
    validate_and_fix_image_references (dirStr size path) avail =
      (if basename path ∈ avail.map basename then dirStr size path
       else []) := by
  unfold validate_and_fix_image_references
  rw [findAllIG_dirStr hsz hp hne]
  simp only [List.foldl_cons, List.foldl_nil]
  by_cases hmem : basename path ∈ avail.map basename
  · rw [if_pos hmem, if_pos hmem]
  · rw [if_neg hmem, if_neg hmem]
    exact subRemoveIG_dirStr hsz hp
      (containsSub_of_suffix (basename_suffix path))

/-- Witness for C8: the spec's own scenario — a directive referencing
`missing.png` while only `present.png` exists is removed entirely. -/
theorem c8_witness :
    (']' ∉ "w".toList) ∧ ('}' ∉ "missing.png".toList) ∧
    ("missing.png".toList ≠ []) ∧
    validate_and_fix_image_references
      (dirStr "w".toList "missing.png".toList)
      ["present.png".toList] = [] := by
  refine ⟨by decide, by decide, by decide, ?_⟩
  rw [c8_amended_single_directive _ _ _ (by decide) (by decide) (by decide)]
  rfl

/-- Counterexample for C8 as stated: with only `data.png` on disk, removing
the dangling `a.png` reference also deletes the `data.png` directive
(its argument contains `a.png` as a substring), so the body is not left
`unchanged otherwise` — the output no longer references the available
`data.png` at all. -/
theorem c8_counterexample :
    validate_and_fix_image_references
      "\\includegraphics[w]{a.png}\n\\includegraphics[w]{data.png}".toList
      ["data.png".toList] = "\n".toList ∧
    containsSub "data.png".toList "\n".toList = false :=
  ⟨rfl, rfl⟩

/-- C9: `clean_latex_response` on the empty body returns the empty string
via the initial truthiness guard, reaching neither repair passes nor the
frame- or brace-balance checkpoints, so it cannot raise. -/
theorem c9_clean_empty_body :
    clean_latex_response [] = Except.ok [] := rfl

/-- C10: in the frame-scope filtering loop, the inside-frame flag is updated
from the line's frame markers before the `\centering` test on that same
line: whatever the incoming state `b`, a line carrying a frame-close marker
(and no frame-open marker) together with `\centering` is dropped, while a
line carrying a frame-open marker together with `\centering` is kept. -/
theorem c10_flip_before_centering (b : Bool) (l : List Char)
    (rest : List (List Char)) :
    (containsSub endFrameMarker l = true →
      containsSub beginFrameMarker l = false →
      containsSub centLit l = true →
      validate_frame_structure_loop b (l :: rest) =
        validate_frame_structure_loop false rest) ∧
    (containsSub beginFrameMarker l = true →
      containsSub centLit l = true →
      validate_frame_structure_loop b (l :: rest) =
        l :: validate_frame_structure_loop true rest) := by
  constructor
  · intro h1 h2 h3
    simp [validate_frame_structure_loop, h1, h2, h3]
  · intro h1 h2
    simp [validate_frame_structure_loop, h1, h2]

/-- Witness for C10: a close-marker line with `\centering` is dropped even
from inside a frame; an open-marker line with `\centering` is kept even
outside one. -/
theorem c10_witness :
    validate_frame_structure_loop true
      ["\\end{frame} \\centering".toList] = [] ∧
    validate_frame_structure_loop false
      ["\\begin{frame}{t} \\centering".toList] =
      ["\\begin{frame}{t} \\centering".toList] := by
  constructor
  · rw [(c10_flip_before_centering true "\\end{frame} \\centering".toList
      []).1 rfl rfl rfl]
    rfl
  · rw [(c10_flip_before_centering false
      "\\begin{frame}{t} \\centering".toList []).2 rfl rfl]
    rfl

end SlideGen
